import Mathlib

/-!
Verification of the cycle-count-zc repository: a shallow embedding of
`src/cycle_count_zc.py` (the hysteresis cycle counter) and `src/file_io.py`
(the format dispatcher, the Lynx binary reader, the delimited text reader and
the channel-name normalizer), together with theorems settling the claims of
the specification.  Python floats are modelled as exact rationals, Python
strings as lists of characters, and pandas DataFrames as ordered lists of
(column name, column data) pairs.
-/

/- ===================================================================
   Cycle counter: src/cycle_count_zc.py, count_cycles_zero_crossing
   =================================================================== -/

/-- One iteration of the loop body of `count_cycles_zero_crossing`:
the running state is a pair (state, flips) with state 0 = neutral,
1 = above +threshold, -1 = below -threshold. -/
def countStep (threshold : ℚ) (st : Int × ℕ) (value : ℚ) : Int × ℕ :=
  if st.1 = 0 then
    if value > threshold then (1, st.2)
    else if value < -threshold then (-1, st.2)
    else st
  else if st.1 = 1 then
    if value < -threshold then (-1, st.2 + 1) else st
  else
    if value > threshold then (1, st.2 + 1) else st

/-- Embedding of `count_cycles_zero_crossing` from src/cycle_count_zc.py:
fold the loop body over the signal starting from (neutral, 0 flips) and
return `flips // 2`. -/
def count_cycles_zero_crossing (signal : List ℚ) (threshold : ℚ) : ℕ :=
  (signal.foldl (countStep threshold) (0, 0)).2 / 2

/- Specification-side model of the hysteresis machine (for the refinement
   part of claim C1): the three states as an explicit tagged variant, with
   the transitions exactly as the specification words them. -/

/-- The three hysteresis states of the specification. -/
inductive HState where
  | neutral
  | positive
  | negative
deriving DecidableEq

/-- Modelled from the spec: one step of the specification's three-state
hysteresis machine (section 4.5 of the specification). -/
def specStep (threshold : ℚ) (st : HState × ℕ) (v : ℚ) : HState × ℕ :=
  match st.1 with
  | .neutral =>
      if v > threshold then (.positive, st.2)
      else if v < -threshold then (.negative, st.2)
      else st
  | .positive =>
      if v < -threshold then (.negative, st.2 + 1) else st
  | .negative =>
      if v > threshold then (.positive, st.2 + 1) else st

/-- Modelled from the spec: the specification's cycle counter, i.e. run the
three-state machine from Neutral with flip count 0 and return
flip_count // 2. -/
def specCountCycles (s : List ℚ) (t : ℚ) : ℕ :=
  (s.foldl (specStep t) (.neutral, 0)).2 / 2

/-- Correspondence between the specification's tagged states and the
integer states used by the source. -/
def toIntState : HState → Int
  | .neutral => 0
  | .positive => 1
  | .negative => -1

/- ===================================================================
   Channel name normalizer: src/file_io.py, the cleaning block shared by
   read_lynx_file and read_lynx_headers
   =================================================================== -/

/-- ASCII model of the whitespace class matched by the regular expression
class backslash-s and by str.strip. -/
def isPyWs (c : Char) : Bool :=
  c == ' ' || c == '\t' || c == '\n' || c == '\r' || c == '\x0b' || c == '\x0c'

/-- Embedding of Python str.strip: drop whitespace from both ends. -/
def pyStrip (s : List Char) : List Char :=
  ((s.dropWhile isPyWs).reverse.dropWhile isPyWs).reverse

/-- Helper for `collapseWs`: the boolean records whether the previous
character was whitespace (so a whole run yields a single underscore). -/
def collapseWsAux : Bool → List Char → List Char
  | _, [] => []
  | prevWs, c :: rest =>
    if isPyWs c then
      if prevWs then collapseWsAux true rest
      else '_' :: collapseWsAux true rest
    else c :: collapseWsAux false rest

/-- Embedding of re.sub applied with the whitespace-run pattern and the
underscore replacement: each maximal run of whitespace becomes one
underscore. -/
def collapseWs (s : List Char) : List Char :=
  collapseWsAux false s

/-- ASCII model of the character class kept by the removal step: word
characters (alphanumeric or underscore), hyphen, period, forward slash. -/
def isAllowedChar (c : Char) : Bool :=
  c.isAlphanum || c == '_' || c == '-' || c == '.' || c == '/'

/-- Embedding of re.sub removing every character outside the allowed
class. -/
def removeDisallowed (s : List Char) : List Char :=
  s.filter isAllowedChar

/-- The full cleaning applied to a raw name or a raw unit in
read_lynx_file and read_lynx_headers: strip, collapse whitespace runs to
underscores, remove disallowed characters. -/
def cleanPart (s : List Char) : List Char :=
  removeDisallowed (collapseWs (pyStrip s))

/-- The decimal digit character of a digit value. -/
def digitChar (d : ℕ) : Char :=
  Char.ofNat (48 + d)

/-- Helper for `natChars`, structurally recursive on a fuel argument that
bounds the number, producing the decimal digits most significant first. -/
def natCharsAux : ℕ → ℕ → List Char
  | 0, _ => []
  | _ + 1, 0 => []
  | fuel + 1, n + 1 => natCharsAux fuel ((n + 1) / 10) ++ [digitChar ((n + 1) % 10)]

/-- Embedding of the Python decimal rendering of a nonnegative integer,
as used by the index-prefix f-string. -/
def natChars (n : ℕ) : List Char :=
  if n = 0 then ['0'] else natCharsAux n n

/-- Proof helper: read a decimal digit string back into a number (used to
show that `natChars` is injective). -/
def parseDigits (s : List Char) : ℕ :=
  s.foldl (fun acc c => acc * 10 + (c.toNat - 48)) 0

/-- Combine a cleaned name and a cleaned unit: name[unit] when the unit is
nonempty, the name alone otherwise. -/
def nameWithUnit (r u : List Char) : List Char :=
  if u ≠ [] then r ++ '[' :: (u ++ [']']) else r

/-- Embedding of the channel-identifier construction of read_lynx_file and
read_lynx_headers: clean the raw name and raw unit, combine, and prepend
the 1-based index followed by a colon. -/
def normalizeChannel (rawName rawUnit : List Char) (idx : ℕ) : List Char :=
  natChars idx ++ ':' :: nameWithUnit (cleanPart rawName) (cleanPart rawUnit)

/- ===================================================================
   Lynx binary reader: src/file_io.py, read_lynx_file / read_lynx_headers.
   The COM driver is abstracted as the metadata values and per-channel
   accessor functions it returns; only the successful path is modelled.
   =================================================================== -/

/-- Embedding of numpy.linspace with the endpoint included: num evenly
spaced rationals from start to stop, the last forced to stop. -/
def linspace (start stop : ℚ) (num : ℕ) : List ℚ :=
  if num = 0 then []
  else if num = 1 then [start]
  else
    (List.range num).map fun i =>
      if i = num - 1 then stop
      else start + (i : ℚ) * ((stop - start) / ((num : ℚ) - 1))

/-- The canonical result of ingesting one file: ordered (column name,
column data) pairs with the time column included, the duration in seconds,
and the sampling frequency. -/
structure Dataset where
  cols : List (List Char × List ℚ)
  duration : ℚ
  fs : ℚ
deriving DecidableEq

/-- First column of a frame whose name equals the given one, as pandas
column selection by label does for unique labels. -/
def lookupCol (nm : List Char) (df : List (List Char × List ℚ)) : Option (List ℚ) :=
  (df.find? fun c => c.1 == nm).map Prod.snd

/-- Embedding of read_lynx_file (success path): one column per channel
named by `normalizeChannel` with the 1-based index, then the synthesized
time column appended; duration is sample count over sampling frequency. -/
def read_lynx_file (channels sampleCount : ℕ) (name unit : ℕ → List Char)
    (buffer : ℕ → List ℚ) (fs : ℚ) : Dataset :=
  { cols :=
      ((List.range channels).map fun i =>
        (normalizeChannel (name i) (unit i) (i + 1), buffer i))
      ++ [("time".data, linspace 0 (((sampleCount : ℚ) - 1) / fs) sampleCount)]
    duration := (sampleCount : ℚ) / fs
    fs := fs }

/-- Embedding of read_lynx_headers: the normalized channel identifiers for
channel indices 0 up to channels - 1, using the 1-based index prefix. -/
def read_lynx_headers (channels : ℕ) (name unit : ℕ → List Char) : List (List Char) :=
  (List.range channels).map fun i => normalizeChannel (name i) (unit i) (i + 1)

/- ===================================================================
   Delimited text reader: src/file_io.py, read_text_file.  The parsed
   frame is taken as input; the reader's post-parse logic is embedded.
   =================================================================== -/

/-- Failures of the text reader: the missing time column check (a
ValueError in the source) and the out-of-range positional access raised
by iloc on an empty time column. -/
inductive ReadError where
  | missingTimeColumn
  | indexError
deriving DecidableEq

/-- Embedding of the column move in read_text_file: when the first column
is named time, the remaining columns followed by the time column;
otherwise the frame unchanged. -/
def moveTimeFirstColToEnd (df : List (List Char × List ℚ)) : List (List Char × List ℚ) :=
  match df with
  | [] => []
  | c :: rest => if c.1 = "time".data then rest ++ [c] else c :: rest

/-- Embedding of read_text_file on a parsed frame: require a column named
exactly time, move it to the end when it is the first column, and compute
duration and sampling frequency from the time data. -/
def read_text_file (df : List (List Char × List ℚ)) : Except ReadError Dataset :=
  if "time".data ∉ df.map Prod.fst then .error .missingTimeColumn
  else
    match lookupCol "time".data (moveTimeFirstColToEnd df) with
    | none => .error .missingTimeColumn
    | some timeData =>
      if timeData.isEmpty then .error .indexError
      else
        let dur := timeData.getLastD 0 - timeData.headD 0
        .ok { cols := moveTimeFirstColToEnd df
              duration := dur
              fs := if dur ≠ 0 then ((timeData.length : ℚ) - 1) / dur else 0 }

/- ===================================================================
   Format dispatchers: src/file_io.py, read_file_data and
   read_channel_headers.  Modelled as the routing decision they make.
   =================================================================== -/

/-- Embedding of Python str.rfind for a single character: the index of the
last occurrence, or -1 when absent. -/
def pyRfind (t : Char) (s : List Char) : Int :=
  (s.foldl (fun (acc : Int × Int) c => (if c = t then acc.2 else acc.1, acc.2 + 1))
    (-1, 0)).1

/-- Embedding of the extension part returned by os.path.splitext on
Windows: the suffix from the last dot of the basename, unless every
character of the basename before that dot is itself a dot. -/
def splitextExt (p : List Char) : List Char :=
  let sepIndex := max (pyRfind '\\' p) (pyRfind '/' p)
  let dotIndex := pyRfind '.' p
  if sepIndex < dotIndex then
    if ((p.drop (sepIndex + 1).toNat).take (dotIndex - sepIndex - 1).toNat).any
        (fun c => c != '.') then
      p.drop dotIndex.toNat
    else []
  else []

/-- The routing decision of the two dispatchers: the Lynx binary reader,
the text reader, or the unsupported-format failure carrying the
(lowercased) extension. -/
inductive Route where
  | lynx
  | text
  | unsupported (ext : List Char)
deriving DecidableEq

/-- The lowercased extension a dispatcher computes from a path. -/
def lowerExt (p : List Char) : List Char :=
  (splitextExt p).map Char.toLower

/-- Embedding of the routing performed by read_file_data. -/
def read_file_data (p : List Char) : Route :=
  let ext := lowerExt p
  if ext ∈ [".tem".data, ".ltx".data, ".ltd".data] then .lynx
  else if ext ∈ [".csv".data, ".txt".data, ".asc".data] then .text
  else .unsupported ext

/-- Embedding of the routing performed by read_channel_headers, whose
dispatch body is identical to that of read_file_data. -/
def read_channel_headers (p : List Char) : Route :=
  let ext := lowerExt p
  if ext ∈ [".tem".data, ".ltx".data, ".ltd".data] then .lynx
  else if ext ∈ [".csv".data, ".txt".data, ".asc".data] then .text
  else .unsupported ext

/- ===================================================================
   Theorems.  Helper lemmas first, then one theorem per claim.
   =================================================================== -/

/-- One step of the source's integer-state machine agrees with one step of
the specification's tagged-state machine under `toIntState`. -/
theorem countStep_eq_specStep (t v : ℚ) (h : HState) (f : ℕ) :
    countStep t (toIntState h, f) v =
      (toIntState (specStep t (h, f) v).1, (specStep t (h, f) v).2) := by
  cases h <;> simp only [countStep, specStep, toIntState] <;> norm_num <;>
    split_ifs <;> simp_all

/-- Folding the source's step function corresponds to folding the
specification's step function. -/
theorem foldl_countStep_eq (t : ℚ) (s : List ℚ) :
    ∀ (h : HState) (f : ℕ),
      s.foldl (countStep t) (toIntState h, f) =
        (toIntState (s.foldl (specStep t) (h, f)).1, (s.foldl (specStep t) (h, f)).2) := by
  induction s with
  | nil => intro h f; rfl
  | cons v s ih =>
      intro h f
      simp only [List.foldl_cons]
      rw [countStep_eq_specStep]
      have := ih (specStep t (h, f) v).1 (specStep t (h, f) v).2
      simpa using this

/-- While every sample stays inside the closed threshold band, the fold
stays in the neutral state with zero flips. -/
theorem foldl_countStep_neutral (t : ℚ) (s : List ℚ) (hs : ∀ v ∈ s, |v| ≤ t) :
    s.foldl (countStep t) (0, 0) = ((0 : Int), (0 : ℕ)) := by
  induction s with
  | nil => rfl
  | cons v s ih =>
      have hv := hs v (List.mem_cons_self v s)
      rw [abs_le] at hv
      have h1 : ¬ v > t := not_lt.mpr hv.2
      have h2 : ¬ v < -t := not_lt.mpr hv.1
      simp only [List.foldl_cons, countStep, h1, h2, if_false]
      norm_num
      exact ih fun w hw => hs w (List.mem_cons_of_mem v hw)

/-- Claim C1 (amended): count_cycles_zero_crossing implements the
three-state hysteresis machine exactly as the specification words it
(refinement against the spec-modelled machine), returns flip_count // 2,
and on the concrete inputs: the five-sample example yields 1, the
six-sample example yields 2 (four flips, not the claimed one cycle), the
sub-threshold example yields 0, and for every positive threshold the empty
sequence and any sequence staying inside the band yield 0. -/
theorem c1_cycle_counter :
    (∀ (s : List ℚ) (t : ℚ), count_cycles_zero_crossing s t = specCountCycles s t) ∧
    count_cycles_zero_crossing [0, 11, -12, 13, -14] 10 = 1 ∧
    count_cycles_zero_crossing [0, 11, -12, 13, -14, 15] 10 = 2 ∧
    count_cycles_zero_crossing [5, -5, 5, -5] 10 = 0 ∧
    (∀ t : ℚ, 0 < t → count_cycles_zero_crossing [] t = 0) ∧
    (∀ t : ℚ, 0 < t → ∀ s : List ℚ, (∀ v ∈ s, |v| ≤ t) →
      count_cycles_zero_crossing s t = 0) := by
  refine ⟨fun s t => ?_, by decide, by decide, by decide,
    fun t _ => by simp [count_cycles_zero_crossing],
    fun t _ s hs => ?_⟩
  · unfold count_cycles_zero_crossing specCountCycles
    rw [show ((0 : Int), (0 : ℕ)) = (toIntState .neutral, (0 : ℕ)) from rfl,
      foldl_countStep_eq]
  · unfold count_cycles_zero_crossing
    rw [foldl_countStep_neutral t s hs]
    rfl

/-- Witness for claim C1's theorem at concrete inputs: threshold 3 with the
empty list and threshold 2 with a list staying inside the band. -/
theorem c1_cycle_counter_witness :
    count_cycles_zero_crossing [] 3 = 0 ∧ count_cycles_zero_crossing [1, -1] 2 = 0 := by
  refine ⟨c1_cycle_counter.2.2.2.2.1 3 (by norm_num),
    c1_cycle_counter.2.2.2.2.2 2 (by norm_num) [1, -1] ?_⟩
  intro v hv
  simp only [List.mem_cons, List.not_mem_nil, or_false] at hv
  rcases hv with rfl | rfl <;> norm_num

/-- Claim C1 counterexample: on the six-sample input the code performs four
flips and returns 2, not the claimed 1. -/
theorem c1_cycle_counter_cex :
    count_cycles_zero_crossing [0, 11, -12, 13, -14, 15] 10 ≠ 1 := by decide

/-- Claim C6 (amended): count_cycles_zero_crossing performs no threshold
validation; with a zero or negative threshold it silently proceeds through
the same state machine and returns a value. -/
theorem c6_no_threshold_validation :
    count_cycles_zero_crossing [0, 1, -1, 1, -1] 0 = 1 ∧
    count_cycles_zero_crossing [0, 0, 2, 0, 2] (-1) = 2 := ⟨by decide, by decide⟩

/-- Claim C6 counterexample: called with threshold 0 the code does not
fail; it runs the loop and returns an ordinary cycle count. -/
theorem c6_no_threshold_validation_cex :
    count_cycles_zero_crossing [11, -11, 11] 0 = 1 := by decide

/-- The state of the fold is always one of 0, 1, -1. -/
theorem countStep_state_mem (t v : ℚ) (st : Int × ℕ)
    (h : st.1 = 0 ∨ st.1 = 1 ∨ st.1 = -1) :
    (countStep t st v).1 = 0 ∨ (countStep t st v).1 = 1 ∨ (countStep t st v).1 = -1 := by
  unfold countStep
  split_ifs <;> simp_all

/-- For a nonnegative threshold, one step of the machine on a negated
sample from a negated state mirrors the step on the original sample. -/
theorem countStep_neg (t : ℚ) (ht : 0 ≤ t) (v : ℚ) (st : Int) (f : ℕ)
    (h : st = 0 ∨ st = 1 ∨ st = -1) :
    countStep t (-st, f) (-v) = (-(countStep t (st, f) v).1, (countStep t (st, f) v).2) := by
  rcases h with rfl | rfl | rfl
  · by_cases h1 : v > t
    · have h2 : ¬ v < -t := by linarith
      have h3 : ¬ -v > t := by linarith
      have h4 : -v < -t := by linarith
      simp [countStep, h1, h2, h3, h4]
    · by_cases h2 : v < -t
      · have h3 : -v > t := by linarith
        simp [countStep, h1, h2, h3]
      · have h3 : ¬ -v > t := by linarith
        have h4 : ¬ -v < -t := by linarith
        simp [countStep, h1, h2, h3, h4]
  · by_cases h1 : v < -t
    · have h2 : -v > t := by linarith
      simp [countStep, h1, h2]
    · have h2 : ¬ -v > t := by linarith
      simp [countStep, h1, h2]
  · by_cases h1 : v > t
    · have h2 : -v < -t := by linarith
      simp [countStep, h1, h2]
    · have h2 : ¬ -v < -t := by linarith
      simp [countStep, h1, h2]

/-- Folding over the negated signal from the negated state mirrors folding
over the original signal, with identical flip counts. -/
theorem foldl_countStep_neg (t : ℚ) (ht : 0 ≤ t) (s : List ℚ) :
    ∀ (st : Int) (f : ℕ), (st = 0 ∨ st = 1 ∨ st = -1) →
      (s.map fun v => -v).foldl (countStep t) (-st, f) =
        (-(s.foldl (countStep t) (st, f)).1, (s.foldl (countStep t) (st, f)).2) := by
  induction s with
  | nil => intro st f h; rfl
  | cons v s ih =>
      intro st f h
      simp only [List.map_cons, List.foldl_cons]
      rw [countStep_neg t ht v st f h]
      have h' := countStep_state_mem t v (st, f) (by simpa using h)
      have := ih (countStep t (st, f) v).1 (countStep t (st, f) v).2 (by simpa using h')
      simpa using this

/-- Claim C10 (amended): for every sample list and every nonnegative
threshold, negating every sample pointwise leaves the cycle count
unchanged; for negative thresholds the symmetry fails (see the
counterexample). -/
theorem c10_negation_symmetry (s : List ℚ) (t : ℚ) (ht : 0 ≤ t) :
    count_cycles_zero_crossing (s.map fun v => -v) t = count_cycles_zero_crossing s t := by
  unfold count_cycles_zero_crossing
  have h := foldl_countStep_neg t ht s 0 0 (Or.inl rfl)
  simp only [neg_zero] at h
  rw [h]

/-- Witness for claim C10's theorem at a concrete input. -/
theorem c10_negation_symmetry_witness :
    count_cycles_zero_crossing ([0, 11, -12].map fun v => -v) 10
      = count_cycles_zero_crossing [0, 11, -12] 10 :=
  c10_negation_symmetry [0, 11, -12] 10 (by norm_num)

/-- Claim C10 counterexample: at the negative threshold -1 the symmetry
fails; the original list counts 2 cycles and the negated list counts 1. -/
theorem c10_negation_symmetry_cex :
    count_cycles_zero_crossing ([0, 0, 2, 0, 2].map fun v => -v) (-1)
      ≠ count_cycles_zero_crossing [0, 0, 2, 0, 2] (-1) := by decide

/-- A digit character's code is 48 plus the digit. -/
theorem digitChar_toNat : ∀ d, d < 10 → (digitChar d).toNat = 48 + d := by decide

/-- No digit character is a colon. -/
theorem digitChar_ne_colon : ∀ d, d < 10 → digitChar d ≠ ':' := by decide

/-- Appending one character multiplies the parsed value by ten and adds
the digit. -/
theorem parseDigits_append_singleton (xs : List Char) (c : Char) :
    parseDigits (xs ++ [c]) = parseDigits xs * 10 + (c.toNat - 48) := by
  unfold parseDigits
  rw [List.foldl_append]
  rfl

/-- Parsing the rendered digits of a number returns the number (helper
version on the fuelled renderer). -/
theorem parseDigits_natCharsAux : ∀ (fuel n : ℕ), n ≤ fuel →
    parseDigits (natCharsAux fuel n) = n := by
  intro fuel
  induction fuel with
  | zero =>
      intro n hn
      interval_cases n
      rfl
  | succ fuel ih =>
      intro n hn
      cases n with
      | zero => rfl
      | succ m =>
          rw [natCharsAux, parseDigits_append_singleton]
          have hd : (m + 1) % 10 < 10 := Nat.mod_lt _ (by norm_num)
          rw [digitChar_toNat _ hd]
          have hle : (m + 1) / 10 ≤ fuel := by
            have := Nat.div_lt_self (Nat.succ_pos m) (show 1 < 10 by norm_num)
            omega
          rw [ih _ hle]
          omega

/-- Parsing the decimal rendering of a number returns the number. -/
theorem parseDigits_natChars (n : ℕ) : parseDigits (natChars n) = n := by
  unfold natChars
  split_ifs with h
  · subst h; rfl
  · exact parseDigits_natCharsAux n n le_rfl

/-- The decimal rendering is injective. -/
theorem natChars_inj {n m : ℕ} (h : natChars n = natChars m) : n = m := by
  rw [← parseDigits_natChars n, h, parseDigits_natChars]

/-- The fuelled decimal renderer never produces a colon. -/
theorem colon_not_mem_natCharsAux : ∀ (fuel n : ℕ), ':' ∉ natCharsAux fuel n := by
  intro fuel
  induction fuel with
  | zero => intro n h; simp [natCharsAux] at h
  | succ fuel ih =>
      intro n
      cases n with
      | zero => intro h; simp [natCharsAux] at h
      | succ m =>
          intro h
          rw [natCharsAux] at h
          rcases List.mem_append.mp h with h | h
          · exact ih _ h
          · have hd : (m + 1) % 10 < 10 := Nat.mod_lt _ (by norm_num)
            simp only [List.mem_singleton] at h
            exact digitChar_ne_colon _ hd h.symm

/-- The decimal rendering never contains a colon. -/
theorem colon_not_mem_natChars (n : ℕ) : ':' ∉ natChars n := by
  unfold natChars
  split_ifs
  · decide
  · exact colon_not_mem_natCharsAux n n

/-- Two colon-free prefixes followed by a colon and arbitrary suffixes can
only form equal lists when the prefixes agree. -/
theorem append_colon_cons_inj : ∀ (xs ys b b' : List Char), ':' ∉ xs → ':' ∉ ys →
    xs ++ ':' :: b = ys ++ ':' :: b' → xs = ys := by
  intro xs
  induction xs with
  | nil =>
      intro ys b b' _ hy h
      cases ys with
      | nil => rfl
      | cons y ys =>
          simp only [List.nil_append, List.cons_append, List.cons.injEq] at h
          exact absurd (by rw [h.1]; exact List.mem_cons_self y ys) hy
  | cons x xs ih =>
      intro ys b b' hx hy h
      cases ys with
      | nil =>
          simp only [List.cons_append, List.nil_append, List.cons.injEq] at h
          exact absurd (by rw [← h.1]; exact List.mem_cons_self x xs) hx
      | cons y ys =>
          simp only [List.cons_append, List.cons.injEq] at h
          have hx' : ':' ∉ xs := fun hh => hx (List.mem_cons_of_mem x hh)
          have hy' : ':' ∉ ys := fun hh => hy (List.mem_cons_of_mem y hh)
          rw [h.1, ih ys b b' hx' hy' h.2]

/-- A channel identifier determines its index: the digits before the first
colon parse back to it, whatever the raw names and units were. -/
theorem normalizeChannel_index_inj (n1 u1 n2 u2 : List Char) {i j : ℕ}
    (h : normalizeChannel n1 u1 i = normalizeChannel n2 u2 j) : i = j := by
  unfold normalizeChannel at h
  exact natChars_inj (append_colon_cons_inj _ _ _ _ (colon_not_mem_natChars i)
    (colon_not_mem_natChars j) h)

/-- Claim C7: the channel identifiers produced for 1-based indices 1..n are
pairwise distinct for every choice of raw names and units (in particular
when all names and all units are identical), because the index prefix and
the colon-free cleaned segments make the identifier determine its index. -/
theorem c7_channel_ids_distinct (channels : ℕ) (name unit : ℕ → List Char) :
    (read_lynx_headers channels name unit).Nodup := by
  unfold read_lynx_headers
  refine List.Nodup.map_on ?_ (List.nodup_range channels)
  intro i _ j _ hEq
  have := normalizeChannel_index_inj _ _ _ _ hEq
  omega

/-- Claim C5 (amended): the Normalizer on raw name with two embedded
spaces, raw unit with an embedded space, and index 3 returns
3:Force_X[k_N]; the cleaning strips the ends, collapses each whitespace
run to a single underscore (which the removal step keeps, underscore being
a word character), and removes the remaining disallowed characters. -/
theorem c5_normalizer_example :
    normalizeChannel "Force  X".data "k N".data 3 = "3:Force_X[k_N]".data ∧
    cleanPart "k N".data = "k_N".data := by
  exact ⟨by decide, by decide⟩

/-- Claim C5 counterexample: the claimed identifier with the unit rendered
as kN is not what the code produces, since the embedded space becomes an
underscore that survives the removal step. -/
theorem c5_normalizer_example_cex :
    normalizeChannel "Force  X".data "k N".data 3 ≠ "3:Force_X[kN]".data := by decide

/-- Claim C8: both dispatch entry points make the same routing decision,
based on the case-insensitively lowered extension: the three binary
extensions go to the Lynx reader, the three text extensions to the text
reader, and anything else fails as unsupported, carrying the lowered
extension, with no other action taken. -/
theorem c8_dispatch (p : List Char) :
    read_channel_headers p = read_file_data p ∧
    (lowerExt p ∈ [".tem".data, ".ltx".data, ".ltd".data] → read_file_data p = .lynx) ∧
    (lowerExt p ∈ [".csv".data, ".txt".data, ".asc".data] → read_file_data p = .text) ∧
    (lowerExt p ∉ [".tem".data, ".ltx".data, ".ltd".data] →
      lowerExt p ∉ [".csv".data, ".txt".data, ".asc".data] →
      read_file_data p = .unsupported (lowerExt p)) := by
  refine ⟨rfl, fun h => ?_, fun h => ?_, fun h1 h2 => ?_⟩
  · simp only [read_file_data]
    rw [if_pos h]
  · have hnb : lowerExt p ∉ [".tem".data, ".ltx".data, ".ltd".data] := by
      simp only [List.mem_cons, List.not_mem_nil, or_false] at h ⊢
      rcases h with h | h | h <;> rw [h] <;> decide
    simp only [read_file_data]
    rw [if_neg hnb, if_pos h]
  · simp only [read_file_data]
    rw [if_neg h1, if_neg h2]

/-- Witness for claim C8's theorem: an uppercase binary extension routes to
the Lynx reader, a mixed-case text extension routes to the text reader, and
an unrecognized extension is reported as unsupported by the header
dispatcher as well. -/
theorem c8_dispatch_witness :
    read_file_data "run1.TEM".data = Route.lynx ∧
    read_file_data "Data.Csv".data = Route.text ∧
    read_channel_headers "notes.xyz".data = Route.unsupported ".xyz".data := by
  refine ⟨(c8_dispatch "run1.TEM".data).2.1 (by decide),
    (c8_dispatch "Data.Csv".data).2.2.1 (by decide), ?_⟩
  rw [(c8_dispatch "notes.xyz".data).1,
    (c8_dispatch "notes.xyz".data).2.2.2 (by decide) (by decide)]
  decide

/-- A name present among the columns makes the label lookup succeed. -/
theorem lookupCol_isSome_of_mem (nm : List Char) (l : List (List Char × List ℚ))
    (h : nm ∈ l.map Prod.fst) : (lookupCol nm l).isSome := by
  unfold lookupCol
  obtain ⟨c, hc, hfst⟩ := List.mem_map.mp h
  have hfind : (l.find? fun c => c.1 == nm).isSome :=
    List.find?_isSome.mpr ⟨c, hc, by simp [hfst]⟩
  cases hp : l.find? fun c => c.1 == nm with
  | none => rw [hp] at hfind; simp at hfind
  | some x => rfl

/-- The column move preserves which names occur. -/
theorem mem_map_fst_moveTime (df : List (List Char × List ℚ))
    (h : "time".data ∈ df.map Prod.fst) :
    "time".data ∈ (moveTimeFirstColToEnd df).map Prod.fst := by
  cases df with
  | nil => simp at h
  | cons c rest =>
      simp only [moveTimeFirstColToEnd]
      split_ifs with hc
      · simp only [List.map_append, List.map_cons, List.mem_append] at h ⊢
        simp only [List.map_cons, List.mem_cons] at h
        rcases h with h | h
        · exact Or.inr (by simp [h])
        · exact Or.inl (by simpa using h)
      · exact h

/-- Claim C2 (amended): the text reader fails with the missing-time-column
error exactly when no header column equals the lowercase token time; the
match is case-sensitive, so a header containing Time or TIME but not time
also fails. -/
theorem c2_missing_time_iff (df : List (List Char × List ℚ)) :
    read_text_file df = .error .missingTimeColumn ↔ "time".data ∉ df.map Prod.fst := by
  constructor
  · intro h
    by_contra hmem
    unfold read_text_file at h
    rw [if_neg (not_not_intro hmem)] at h
    have hs := lookupCol_isSome_of_mem _ _ (mem_map_fst_moveTime df hmem)
    obtain ⟨t, ht⟩ := Option.isSome_iff_exists.mp hs
    rw [ht] at h
    simp only at h
    split_ifs at h
    all_goals simp_all
  · intro h
    unfold read_text_file
    rw [if_pos h]

/-- Witness for claim C2's theorem: a header with only an uppercase TIME
column fails with the missing-time-column error. -/
theorem c2_missing_time_iff_witness :
    read_text_file [("TIME".data, [2])] = .error .missingTimeColumn :=
  (c2_missing_time_iff _).mpr (by decide)

/-- Claim C2 counterexample: a file whose header contains Time (capital T)
but not lowercase time is not read successfully as claimed; it fails with
the missing-time-column error. -/
theorem c2_missing_time_iff_cex :
    read_text_file [("Time".data, [0, 1])] = .error .missingTimeColumn ∧
    "Time".data ≠ "time".data := by
  constructor
  · norm_num +decide [read_text_file, lookupCol, moveTimeFirstColToEnd, List.find?]
  · decide

/-- A successful text read returns exactly the moved frame as columns. -/
theorem read_text_file_ok_cols (df : List (List Char × List ℚ)) (r : Dataset)
    (h : read_text_file df = .ok r) : r.cols = moveTimeFirstColToEnd df := by
  unfold read_text_file at h
  split_ifs at h
  cases hl : lookupCol "time".data (moveTimeFirstColToEnd df) with
  | none => rw [hl] at h; exact Except.noConfusion h
  | some t =>
      rw [hl] at h
      simp only at h
      split_ifs at h
      all_goals first
        | exact Except.noConfusion h
        | rw [← Except.ok.inj h]

/-- Claim C3 (amended): a successful text read moves the time column to the
end only when time is the first column (the remaining columns then keep
their original relative order); when the time column is anywhere else,
including strictly in the middle, the column order is returned unchanged. -/
theorem c3_time_reorder (df : List (List Char × List ℚ)) (r : Dataset)
    (h : read_text_file df = .ok r) :
    ((df.map Prod.fst).headD [] = "time".data →
      r.cols.map Prod.fst = (df.map Prod.fst).tail ++ ["time".data]) ∧
    ((df.map Prod.fst).headD [] ≠ "time".data → r.cols = df) := by
  have hc := read_text_file_ok_cols df r h
  cases df with
  | nil => simp [read_text_file] at h
  | cons c rest =>
      constructor
      · intro hh
        simp only [List.map_cons, List.headD_cons] at hh
        rw [hc]
        simp only [moveTimeFirstColToEnd]
        rw [if_pos hh]
        simp [hh]
      · intro hh
        simp only [List.map_cons, List.headD_cons] at hh
        rw [hc]
        simp only [moveTimeFirstColToEnd]
        rw [if_neg hh]

/-- Witness for claim C3's theorem: a frame whose first column is time is
returned with the other column first and time moved to the end. -/
theorem c3_time_reorder_witness :
    (Dataset.mk [("A".data, [(5 : ℚ), 6]), ("time".data, [0, 1])] 1 1).cols.map Prod.fst
      = (([("time".data, [(0 : ℚ), 1]), ("A".data, [5, 6])]).map Prod.fst).tail
        ++ ["time".data] :=
  (c3_time_reorder [("time".data, [0, 1]), ("A".data, [5, 6])]
    ⟨[("A".data, [5, 6]), ("time".data, [0, 1])], 1, 1⟩
    (by norm_num +decide [read_text_file, lookupCol, moveTimeFirstColToEnd,
      List.find?])).1 (by decide)

/-- Claim C3 counterexample: with the time column in the middle the reader
returns the columns unchanged, so time is not last as claimed. -/
theorem c3_time_reorder_cex :
    read_text_file [("A".data, [(1 : ℚ), 2]), ("time".data, [0, 1]), ("B".data, [3, 4])]
      = .ok ⟨[("A".data, [1, 2]), ("time".data, [0, 1]), ("B".data, [3, 4])], 1, 1⟩ ∧
    ([("A".data, [(1 : ℚ), 2]), ("time".data, [0, 1]), ("B".data, [3, 4])].map
      Prod.fst).getLastD [] ≠ "time".data := by
  constructor
  · norm_num +decide [read_text_file, lookupCol, moveTimeFirstColToEnd, List.find?]
  · decide

/-- The synthesized vector has one entry per sample. -/
theorem linspace_length (a b : ℚ) (num : ℕ) : (linspace a b num).length = num := by
  unfold linspace
  split_ifs <;> simp_all

/-- Pointwise value of the time vector synthesized by the Lynx reader:
entry i is i over the sampling frequency. -/
theorem linspace_time_getD (fs : ℚ) (num : ℕ) (hnum : 1 ≤ num) (hfs : fs ≠ 0) :
    ∀ i < num, (linspace 0 (((num : ℚ) - 1) / fs) num).getD i 0 = (i : ℚ) / fs := by
  intro i hi
  unfold linspace
  rcases Nat.lt_or_ge num 2 with h2 | h2
  · have hn1 : num = 1 := by omega
    subst hn1
    have : i = 0 := by omega
    subst this
    norm_num
  · have hne : num ≠ 0 := by omega
    have hne1 : num ≠ 1 := by omega
    rw [if_neg hne, if_neg hne1]
    rw [List.getD_eq_getElem?_getD, List.getElem?_map, List.getElem?_range hi]
    simp only [Option.map_some', Option.getD_some]
    have hcast : ((num : ℚ) - 1) ≠ 0 := by
      have : (2 : ℚ) ≤ (num : ℚ) := by exact_mod_cast h2
      linarith
    split_ifs with hlast
    · subst hlast
      have : ((num - 1 : ℕ) : ℚ) = (num : ℚ) - 1 := by
        push_cast [Nat.cast_sub hnum]
        ring
      rw [this]
    · field_simp
      ring

/-- First entry of the synthesized time vector is zero. -/
theorem linspace_time_headD (fs : ℚ) (num : ℕ) (hnum : 1 ≤ num) (hfs : fs ≠ 0) :
    (linspace 0 (((num : ℚ) - 1) / fs) num).headD 0 = 0 := by
  have h0 := linspace_time_getD fs num hnum hfs 0 (by omega)
  rw [List.getD_eq_getElem?_getD] at h0
  rw [List.headD_eq_head?, List.head?_eq_getElem?, h0]
  simp

/-- Last entry of the synthesized time vector is the claimed stop value. -/
theorem linspace_time_getLastD (fs : ℚ) (num : ℕ) (hnum : 1 ≤ num) (hfs : fs ≠ 0) :
    (linspace 0 (((num : ℚ) - 1) / fs) num).getLastD 0 = ((num : ℚ) - 1) / fs := by
  have hlen := linspace_length 0 (((num : ℚ) - 1) / fs) num
  have h0 := linspace_time_getD fs num hnum hfs (num - 1) (by omega)
  rw [List.getD_eq_getElem?_getD] at h0
  rw [List.getLastD_eq_getLast?, List.getLast?_eq_getElem?, hlen, h0]
  congr 1
  push_cast [Nat.cast_sub hnum]
  ring

/-- Every channel identifier contains a colon. -/
theorem colon_mem_normalizeChannel (nm un : List Char) (idx : ℕ) :
    ':' ∈ normalizeChannel nm un idx := by
  unfold normalizeChannel
  exact List.mem_append_right _ (List.mem_cons_self _ _)

/-- Looking up the time column of a Lynx dataset returns the synthesized
time vector: no channel identifier can be named time, since identifiers
contain a colon. -/
theorem lookupCol_time_read_lynx (channels sampleCount : ℕ) (name unit : ℕ → List Char)
    (buffer : ℕ → List ℚ) (fs : ℚ) :
    lookupCol "time".data (read_lynx_file channels sampleCount name unit buffer fs).cols
      = some (linspace 0 (((sampleCount : ℚ) - 1) / fs) sampleCount) := by
  unfold read_lynx_file lookupCol
  simp only
  rw [List.find?_append]
  have h1 : ((List.range channels).map fun i =>
      (normalizeChannel (name i) (unit i) (i + 1), buffer i)).find?
        (fun c => c.1 == "time".data) = none := by
    rw [List.find?_eq_none]
    intro x hx
    obtain ⟨i, _, rfl⟩ := List.mem_map.mp hx
    simp only [beq_iff_eq]
    intro hEq
    have hc := colon_mem_normalizeChannel (name i) (unit i) (i + 1)
    rw [hEq] at hc
    exact absurd hc (by decide)
  rw [h1]
  simp [List.find?]

/-- Claim C9: the Binary Format Reader synthesizes the time vector as
sampleCount points linearly spaced from 0 to (sampleCount - 1) over the
sampling frequency inclusive: the i-th entry is i over the frequency, the
head is 0, the last is the stop value, and for 5 samples at 10 Hz the
vector is [0, 0.1, 0.2, 0.3, 0.4] (floats modelled as exact rationals). -/
theorem c9_time_vector (channels sampleCount : ℕ) (name unit : ℕ → List Char)
    (buffer : ℕ → List ℚ) (fs : ℚ) (hn : 1 ≤ sampleCount) (hfs : 0 < fs) :
    ∃ t, lookupCol "time".data
        (read_lynx_file channels sampleCount name unit buffer fs).cols = some t ∧
      t = linspace 0 (((sampleCount : ℚ) - 1) / fs) sampleCount ∧
      t.length = sampleCount ∧
      (∀ i < sampleCount, t.getD i 0 = (i : ℚ) / fs) ∧
      t.headD 0 = 0 ∧
      t.getLastD 0 = ((sampleCount : ℚ) - 1) / fs ∧
      linspace 0 ((5 - 1 : ℚ) / 10) 5 = [0, 1/10, 2/10, 3/10, 4/10] :=
  ⟨_, lookupCol_time_read_lynx channels sampleCount name unit buffer fs, rfl,
    linspace_length _ _ _, linspace_time_getD fs sampleCount hn (ne_of_gt hfs),
    linspace_time_headD fs sampleCount hn (ne_of_gt hfs),
    linspace_time_getLastD fs sampleCount hn (ne_of_gt hfs),
    by norm_num [linspace, List.range_succ]⟩

/-- Witness for claim C9's theorem at 5 samples and 10 Hz. -/
theorem c9_time_vector_witness :
    ∃ t, lookupCol "time".data
        (read_lynx_file 0 5 (fun _ => []) (fun _ => []) (fun _ => []) 10).cols = some t ∧
      t = linspace 0 ((((5 : ℕ) : ℚ) - 1) / 10) 5 ∧
      t.length = 5 ∧
      (∀ i < 5, t.getD i 0 = (i : ℚ) / 10) ∧
      t.headD 0 = 0 ∧
      t.getLastD 0 = (((5 : ℕ) : ℚ) - 1) / 10 ∧
      linspace 0 ((5 - 1 : ℚ) / 10) 5 = [0, 1/10, 2/10, 3/10, 4/10] :=
  c9_time_vector 0 5 (fun _ => []) (fun _ => []) (fun _ => []) 10 (by norm_num)
    (by norm_num)

/-- Full extraction of a successful text read: the looked-up time column
drives both the returned columns and the duration. -/
theorem read_text_file_ok_spec (df : List (List Char × List ℚ)) (r : Dataset)
    (h : read_text_file df = .ok r) :
    ∃ t, lookupCol "time".data (moveTimeFirstColToEnd df) = some t ∧
      r.cols = moveTimeFirstColToEnd df ∧
      r.duration = t.getLastD 0 - t.headD 0 := by
  unfold read_text_file at h
  split_ifs at h
  cases hl : lookupCol "time".data (moveTimeFirstColToEnd df) with
  | none => rw [hl] at h; exact Except.noConfusion h
  | some t =>
      rw [hl] at h
      simp only at h
      split_ifs at h
      all_goals first
        | exact Except.noConfusion h
        | exact ⟨t, rfl, by rw [← Except.ok.inj h], by rw [← Except.ok.inj h]⟩

/-- Claim C4 (amended): for every Dataset produced by the text reader the
duration equals the last minus the first entry of its time column; for the
Lynx binary reader the duration is sampleCount over the frequency, which
exceeds the span of its synthesized time vector by exactly one sample
period, so the two readers do not agree on this invariant. -/
theorem c4_duration :
    (∀ (df : List (List Char × List ℚ)) (r : Dataset), read_text_file df = .ok r →
      ∃ t, lookupCol "time".data r.cols = some t ∧
        r.duration = t.getLastD 0 - t.headD 0) ∧
    (∀ (channels sampleCount : ℕ) (name unit : ℕ → List Char)
      (buffer : ℕ → List ℚ) (fs : ℚ), 0 < fs → 1 ≤ sampleCount →
      ∃ t, lookupCol "time".data
          (read_lynx_file channels sampleCount name unit buffer fs).cols = some t ∧
        (read_lynx_file channels sampleCount name unit buffer fs).duration
          = (t.getLastD 0 - t.headD 0) + 1 / fs) := by
  constructor
  · intro df r h
    obtain ⟨t, hl, hc, hd⟩ := read_text_file_ok_spec df r h
    exact ⟨t, by rw [hc]; exact hl, hd⟩
  · intro channels sampleCount name unit buffer fs hfs hn
    refine ⟨_, lookupCol_time_read_lynx channels sampleCount name unit buffer fs, ?_⟩
    rw [linspace_time_getLastD fs sampleCount hn (ne_of_gt hfs),
      linspace_time_headD fs sampleCount hn (ne_of_gt hfs)]
    show (sampleCount : ℚ) / fs = ((sampleCount : ℚ) - 1) / fs - 0 + 1 / fs
    field_simp

/-- Witness for claim C4's theorem: the text part at a concrete two-row
frame and the Lynx part at 2 samples and 1 Hz. -/
theorem c4_duration_witness :
    (∃ t, lookupCol "time".data
        (Dataset.mk [("time".data, [(0 : ℚ), 1])] 1 1).cols = some t ∧
      (Dataset.mk [("time".data, [(0 : ℚ), 1])] 1 1).duration
        = t.getLastD 0 - t.headD 0) ∧
    (∃ t, lookupCol "time".data
        (read_lynx_file 0 2 (fun _ => []) (fun _ => []) (fun _ => []) 1).cols = some t ∧
      (read_lynx_file 0 2 (fun _ => []) (fun _ => []) (fun _ => []) 1).duration
        = (t.getLastD 0 - t.headD 0) + 1 / 1) :=
  ⟨c4_duration.1 [("time".data, [(0 : ℚ), 1])] ⟨[("time".data, [(0 : ℚ), 1])], 1, 1⟩
      (by norm_num +decide [read_text_file, lookupCol, moveTimeFirstColToEnd, List.find?]),
    c4_duration.2 0 2 (fun _ => []) (fun _ => []) (fun _ => []) 1 (by norm_num)
      (by norm_num)⟩

/-- Claim C4 counterexample: at 5 samples and 10 Hz the Lynx reader's
duration is 0.5 although its time vector spans only 0.4 seconds. -/
theorem c4_duration_cex :
    (read_lynx_file 0 5 (fun _ => []) (fun _ => []) (fun _ => []) 10).duration = 1 / 2 ∧
    lookupCol "time".data
        (read_lynx_file 0 5 (fun _ => []) (fun _ => []) (fun _ => []) 10).cols
      = some (linspace 0 ((((5 : ℕ) : ℚ) - 1) / 10) 5) ∧
    (linspace 0 ((((5 : ℕ) : ℚ) - 1) / 10) 5).getLastD 0
        - (linspace 0 ((((5 : ℕ) : ℚ) - 1) / 10) 5).headD 0 = 2 / 5 ∧
    (1 / 2 : ℚ) ≠ 2 / 5 := by
  refine ⟨by norm_num [read_lynx_file], lookupCol_time_read_lynx 0 5 _ _ _ 10, ?_, by norm_num⟩
  rw [linspace_time_getLastD 10 5 (by norm_num) (by norm_num),
    linspace_time_headD 10 5 (by norm_num) (by norm_num)]
  norm_num
